/-
Verification of the DineSync consensus engine and the YelpReviewGym
user ledger against their natural-language specification.

The Python sources are shallowly embedded:
  * Python `str` becomes `List Char` (`PyStr`); `str.lower` is modelled on
    its ASCII fragment (the inputs exercised by the spec are ASCII).
  * Python `float` becomes `ℚ` (exact arithmetic; the spec states all
    numeric facts exactly).
  * A Python function that can raise becomes an `Option`-valued function;
    `none` marks the raising execution (the only raise reachable in the
    scoring core is the `ZeroDivisionError` at `distance / max_distance`).
  * Python `dict` becomes an insertion-ordered association list whose
    insert updates an existing key in place, as `dict.__setitem__` does.
-/
import Mathlib

/-- Python strings, as lists of characters. -/
abbrev PyStr := List Char

/-- Model of `str.lower` (ASCII fragment): lower every character. -/
def pyLower (s : PyStr) : PyStr := s.map Char.toLower

/-- Helper for the Python `in` operator on strings: `strStarts hay needle`
is true when `needle` is a leading substring of `hay`. -/
def strStarts : PyStr → PyStr → Bool
  | _, [] => true
  | [], _ :: _ => false
  | a :: as, b :: bs => a == b && strStarts as bs

/-- Model of the Python expression `needle in hay` on strings:
`needle` occurs contiguously inside `hay`. -/
def strContains (needle : PyStr) : PyStr → Bool
  | [] => needle.isEmpty
  | c :: rest => strStarts (c :: rest) needle || strContains needle rest

/-- Mirrors `dataclass UserPreferences` in `consensus_engine.py`
(`veto_items = None` and `veto_items = []` behave identically in the
engine, so the optional field is carried as a plain list). -/
structure UserPreferences where
  name : PyStr
  cuisines : List PyStr
  dietary_restrictions : List PyStr
  budget : PyStr
  max_distance : ℚ
  ambiance : List PyStr
  veto_items : List PyStr
deriving DecidableEq

/-- Mirrors `dataclass Restaurant` in `consensus_engine.py`. -/
structure Restaurant where
  name : PyStr
  cuisine : PyStr
  price : PyStr
  distance : ℚ
  rating : ℚ
  dietary_options : List PyStr
  ambiance : PyStr
  address : PyStr
  review_snippet : Option PyStr
deriving DecidableEq

/-- Mirrors `dataclass ConsensusResult` in `consensus_engine.py`;
`individual_scores` is the insertion-ordered dict `{name: score}`. -/
structure ConsensusResult where
  restaurant : Restaurant
  group_score : ℚ
  individual_scores : List (PyStr × ℚ)
  compromise_level : ℚ
  explanation : PyStr
deriving DecidableEq

def CUISINE_WEIGHT : ℚ := 30
def DIETARY_WEIGHT : ℚ := 25
def PRICE_WEIGHT : ℚ := 20
def DISTANCE_WEIGHT : ℚ := 15
def AMBIANCE_WEIGHT : ℚ := 10

/-- Model of `ConsensusEngine.BUDGET_MAP.get(key, 2)`. -/
def BUDGET_MAP_get (s : PyStr) : ℚ :=
  if s = "$".data then 1
  else if s = "$$".data then 2
  else if s = "$$$".data then 3
  else if s = "$$$$".data then 4
  else 2

/-- Step 0 of `calculate_individual_score`: some veto keyword occurs
(case-insensitively) in `f"{restaurant.name} {restaurant.cuisine}"`.
The empty-list guard `if user_prefs.veto_items:` is absorbed by `any`. -/
def vetoHit (r : Restaurant) (p : UserPreferences) : Bool :=
  let restaurant_text := pyLower (r.name ++ ' ' :: r.cuisine)
  p.veto_items.any fun veto => strContains (pyLower veto) restaurant_text

/-- Step 1 of `calculate_individual_score`: some required dietary
restriction is missing from the restaurant's (lowered) options list. -/
def dietaryFail (r : Restaurant) (p : UserPreferences) : Bool :=
  let restaurant_options := r.dietary_options.map pyLower
  p.dietary_restrictions.any fun restriction =>
    !(restaurant_options.contains (pyLower restriction))

/-- Step 2 of `calculate_individual_score`: cuisine points. -/
def cuisinePts (r : Restaurant) (p : UserPreferences) : ℚ :=
  if !p.cuisines.isEmpty then
    let cuisine_lower := pyLower r.cuisine
    let user_cuisines_lower := p.cuisines.map pyLower
    if user_cuisines_lower.contains cuisine_lower then CUISINE_WEIGHT
    else if user_cuisines_lower.any fun uc =>
        strContains uc cuisine_lower || strContains cuisine_lower uc then
      CUISINE_WEIGHT * (1/2)
    else 0
  else CUISINE_WEIGHT * (1/2)

/-- Step 3 of `calculate_individual_score`: price points (the guard is the
Python truthiness test `if user_prefs.budget and restaurant.price`). -/
def pricePts (r : Restaurant) (p : UserPreferences) : ℚ :=
  if !p.budget.isEmpty && !r.price.isEmpty then
    let user_budget_val := BUDGET_MAP_get p.budget
    let restaurant_price_val := BUDGET_MAP_get r.price
    let price_diff := |user_budget_val - restaurant_price_val|
    if price_diff = 0 then PRICE_WEIGHT
    else if price_diff = 1 then PRICE_WEIGHT * (1/2)
    else 0
  else PRICE_WEIGHT * (1/2)

/-- Step 4 of `calculate_individual_score`: distance points.  When
`restaurant.distance <= user_prefs.max_distance` and `max_distance = 0`,
the source divides by zero (`ZeroDivisionError`), modelled as `none`. -/
def distancePts (r : Restaurant) (p : UserPreferences) : Option ℚ :=
  if r.distance ≤ p.max_distance then
    if p.max_distance = 0 then none
    else some (DISTANCE_WEIGHT * (1 - r.distance / p.max_distance))
  else some 0

/-- Step 5 of `calculate_individual_score`: ambiance points. -/
def ambiancePts (r : Restaurant) (p : UserPreferences) : ℚ :=
  if !p.ambiance.isEmpty && !r.ambiance.isEmpty then
    let ambiance_lower := pyLower r.ambiance
    let user_ambiance_lower := p.ambiance.map pyLower
    if user_ambiance_lower.contains ambiance_lower then AMBIANCE_WEIGHT
    else if user_ambiance_lower.any fun ua =>
        strContains ua ambiance_lower || strContains ambiance_lower ua then
      AMBIANCE_WEIGHT * (1/2)
    else 0
  else AMBIANCE_WEIGHT * (1/2)

/-- Model of `ConsensusEngine.calculate_individual_score`.  The result is
`none` exactly when the source raises (division by a zero `max_distance`);
otherwise `some` of the 0-1 score. -/
def calculate_individual_score (r : Restaurant) (p : UserPreferences) : Option ℚ :=
  if vetoHit r p then some 0
  else if dietaryFail r p then some 0
  else
    match distancePts r p with
    | none => none
    | some dp =>
        some ((DIETARY_WEIGHT + cuisinePts r p + pricePts r p + dp + ambiancePts r p) / 100)

/-- Model of `dict.__setitem__`: update an existing key in place, else
append at the end (Python dicts preserve first-insertion order). -/
def dictInsert (k : PyStr) (v : ℚ) (d : List (PyStr × ℚ)) : List (PyStr × ℚ) :=
  if d.any fun e => e.1 == k then
    d.map fun e => if e.1 == k then (e.1, v) else e
  else d ++ [(k, v)]

/-- Model of `dict.get`-style lookup used in the specification statements. -/
def dictLookup (k : PyStr) (d : List (PyStr × ℚ)) : Option ℚ :=
  (d.find? fun e => e.1 == k).map Prod.snd

/-- The scoring loop at the top of `calculate_group_score`: fold the
preference list into the `individual_scores` dict; a raising
`calculate_individual_score` aborts the whole call (`none`). -/
def buildScores (r : Restaurant) : List UserPreferences → List (PyStr × ℚ) →
    Option (List (PyStr × ℚ))
  | [], d => some d
  | p :: ps, d =>
      match calculate_individual_score r p with
      | none => none
      | some s => buildScores r ps (dictInsert p.name s d)

/-- Model of Python `min` on a non-empty list (`0` is an unreachable
default: every use is guarded by a non-emptiness check, as in the source). -/
def listMin : List ℚ → ℚ
  | [] => 0
  | x :: xs => xs.foldl min x

/-- Model of Python `max` on a non-empty list (same unreachable default). -/
def listMax : List ℚ → ℚ
  | [] => 0
  | x :: xs => xs.foldl max x

/-- Python `sum(l) / len(l)`, the mean used by the specification. -/
def listMean (l : List ℚ) : ℚ := l.sum / l.length

def noUsersMsg : PyStr := "No users to score".data
def msgEveryone : PyStr := "Everyone loves this option equally! ðŸŽ‰".data
def warnPrefix : PyStr := "âš ï¸ ".data
def warnSuffix : PyStr := " is making a big compromise here".data
def fairPrefix : PyStr := "Fair compromise - ".data
def fairSuffix : PyStr := " is least satisfied but still okay".data
def msgGreat : PyStr := "Great option for everyone! âœ…".data

/-- Model of `ConsensusEngine._generate_explanation`. -/
def generate_explanation (individual_scores : List (PyStr × ℚ))
    (min_score max_score : ℚ) : PyStr :=
  let compromiser :=
    ((individual_scores.find? fun e => e.2 == min_score).map Prod.fst).getD []
  if max_score - min_score < 1/10 then msgEveryone
  else if min_score < 1/2 then warnPrefix ++ compromiser ++ warnSuffix
  else if min_score < 7/10 then fairPrefix ++ compromiser ++ fairSuffix
  else msgGreat

/-- Model of `ConsensusEngine.calculate_group_score`; `none` is the
propagated per-participant `ZeroDivisionError`. -/
def calculate_group_score (r : Restaurant) (all_user_prefs : List UserPreferences) :
    Option ConsensusResult :=
  (buildScores r all_user_prefs []).map fun individual_scores =>
    if individual_scores.isEmpty then
      { restaurant := r, group_score := 0, individual_scores := [],
        compromise_level := 0, explanation := noUsersMsg }
    else
      let scores_list := individual_scores.map Prod.snd
      let avg_score := scores_list.sum / scores_list.length
      let min_score := listMin scores_list
      let max_score := listMax scores_list
      let group_score := avg_score * (7/10) + min_score * (3/10)
      { restaurant := r, group_score := group_score,
        individual_scores := individual_scores,
        compromise_level := min_score,
        explanation := generate_explanation individual_scores min_score max_score }

/-- One insertion step of Python `list.sort(key=key, reverse=True)`:
place `x` after every element whose key is at least `key x` (this is what
makes the descending sort stable). -/
def insertDesc (key : α → ℚ) (x : α) : List α → List α
  | [] => [x]
  | y :: ys => if key y < key x then x :: y :: ys else y :: insertDesc key x ys

/-- Stable descending sort by a rational key, the behaviour of
`list.sort(key=key, reverse=True)`. -/
def stableSortDesc (key : α → ℚ) (l : List α) : List α :=
  l.foldl (fun acc x => insertDesc key x acc) []

/-- Sorted in non-increasing key order. -/
def SortedDesc (key : α → ℚ) (l : List α) : Prop :=
  l.Pairwise fun a b => key b ≤ key a

/-- The result-collecting loop of `rank_restaurants`: score each
restaurant in order; a raising call aborts the whole ranking. -/
def mapOption (f : α → Option β) : List α → Option (List β)
  | [] => some []
  | x :: xs =>
      match f x, mapOption f xs with
      | some y, some ys => some (y :: ys)
      | _, _ => none

/-- Model of `ConsensusEngine.rank_restaurants`: score every restaurant,
then sort descending by `group_score` (Python sorts are stable). -/
def rank_restaurants (restaurants : List Restaurant)
    (all_user_prefs : List UserPreferences) : Option (List ConsensusResult) :=
  (mapOption (fun r => calculate_group_score r all_user_prefs) restaurants).map
    (stableSortDesc fun res => res.group_score)

/-- Mirrors a certificate record built by `UserManager.award_certificate`
(`date`/`display_date` both come from one `datetime.now()` reading,
modelled by the abstract clock value `now`). -/
structure Certificate where
  business_name : PyStr
  avg_score : ℚ
  date : ℕ
deriving DecidableEq

/-- Model of Python `list.remove(x)`: drop the first element equal to `x`. -/
def removeFirst (x : Certificate) : List Certificate → List Certificate
  | [] => []
  | y :: ys => if y = x then ys else y :: removeFirst x ys

/-- Model of `UserManager.award_certificate`, acting on the user's
certificate list (`now` is the `datetime.now()` reading). -/
def award_certificate (certs : List Certificate) (business_name : PyStr)
    (avg_score : ℚ) (now : ℕ) : List Certificate :=
  let cert : Certificate := ⟨business_name, avg_score, now⟩
  let existing := certs.filter fun c => c.business_name == business_name
  match existing with
  | [] => certs ++ [cert]
  | e :: _ => if e.avg_score < avg_score then removeFirst e certs ++ [cert] else certs

/-- Number of certificates held for one business. -/
def certCount (b : PyStr) (certs : List Certificate) : ℕ :=
  (certs.filter fun c => c.business_name == b).length

/-- Mirrors the per-business progress record of `user_manager.py`
(timestamps as abstract clock values). -/
structure BusinessProgress where
  location : PyStr
  business_type : PyStr
  started_at : ℕ
  last_updated : ℕ
  total_scenarios : ℕ
  completed_scenarios : List ℕ
  scores : List ℚ
  scenario_titles : List PyStr
  attempts : ℕ
  completed : Bool
deriving DecidableEq

/-- Mirrors a user profile record of `user_manager.py`. -/
structure UserProfile where
  username : PyStr
  created_at : ℕ
  businesses : List (PyStr × BusinessProgress)
  total_attempts : ℕ
  total_score : ℚ
  badges : List PyStr
  certificates : List Certificate
deriving DecidableEq

/-- Result record of `UserManager.get_user_stats`. -/
structure UserStats where
  total_attempts : ℕ
  avg_score : ℚ
  total_businesses : ℕ
  completed_businesses : ℕ
  badges : List PyStr
  certificates_count : ℕ
deriving DecidableEq

/-- Model of `UserManager.get_user_stats` on an existing profile (the
leaderboard only ever calls it for usernames already in the store, so the
get-or-create step never creates). -/
def get_user_stats (u : UserProfile) : UserStats :=
  { total_attempts := u.total_attempts
    avg_score := if 0 < u.total_attempts then u.total_score / u.total_attempts else 0
    total_businesses := u.businesses.length
    completed_businesses := (u.businesses.filter fun b => b.2.completed).length
    badges := u.badges
    certificates_count := u.certificates.length }

/-- One row of `UserManager.get_all_users_leaderboard`. -/
structure LeaderboardEntry where
  username : PyStr
  total_attempts : ℕ
  avg_score : ℚ
  completed_businesses : ℕ
  certificates : ℕ
deriving DecidableEq

/-- The row built for one store entry. -/
def mkLeaderboardEntry (e : PyStr × UserProfile) : LeaderboardEntry :=
  { username := e.1
    total_attempts := (get_user_stats e.2).total_attempts
    avg_score := (get_user_stats e.2).avg_score
    completed_businesses := (get_user_stats e.2).completed_businesses
    certificates := (get_user_stats e.2).certificates_count }

/-- Model of `UserManager.get_all_users_leaderboard`: keep the users with
at least one attempt, then sort descending by average score (stable). -/
def get_all_users_leaderboard (users : List (PyStr × UserProfile)) :
    List LeaderboardEntry :=
  let leaderboard := users.filterMap fun e =>
    if 0 < (get_user_stats e.2).total_attempts then some (mkLeaderboardEntry e)
    else none
  stableSortDesc (fun e => e.avg_score) leaderboard

/-- Python whitespace test (`str.strip` default set, ASCII fragment). -/
def pyIsSpaceChar (c : Char) : Bool :=
  c == ' ' || c == '\t' || c == '\n' || c == '\r' || c == '\x0b' || c == '\x0c'

/-- Model of `str.strip()`: drop whitespace at both ends. -/
def pyStrip (s : PyStr) : PyStr :=
  ((s.dropWhile pyIsSpaceChar).reverse.dropWhile pyIsSpaceChar).reverse

/-- Model of `str.isalnum` on one character (ASCII fragment). -/
def pyIsAlnumChar (c : Char) : Bool :=
  ('a' ≤ c && c ≤ 'z') || ('A' ≤ c && c ≤ 'Z') || ('0' ≤ c && c ≤ '9')

/-- Model of `str.isalnum`: non-empty and every character alphanumeric. -/
def pyStrIsAlnum (s : PyStr) : Bool := !s.isEmpty && s.all pyIsAlnumChar

/-- Outcome of the username validation in `run_app_enhanced.py`; the three
error cases carry which rule failed, as the UI error messages do. -/
inductive UsernameCheck where
  | accepted
  | tooShort
  | tooLong
  | badCharset
deriving DecidableEq

/-- Model of the username validation chain in `run_app_enhanced.py`:
strip, two length checks, then
`username_clean.replace(" ", "").replace("_", "").isalnum()`. -/
def validate_username (username : PyStr) : UsernameCheck :=
  let username_clean := pyStrip username
  if username_clean.length < 3 then .tooShort
  else if 20 < username_clean.length then .tooLong
  else if !(pyStrIsAlnum ((username_clean.filter fun c => !(c == ' ')).filter
      fun c => !(c == '_'))) then .badCharset
  else .accepted


section SortLemmas

variable {α : Type} (key : α → ℚ)

theorem insertDesc_perm (x : α) (l : List α) :
    List.Perm (insertDesc key x l) (x :: l) := by
  induction l with
  | nil => rfl
  | cons y ys ih =>
    simp only [insertDesc]
    split
    · rfl
    · exact (List.Perm.cons y ih).trans (List.Perm.swap x y ys)

theorem foldl_insertDesc_perm :
    ∀ (l acc : List α), List.Perm (l.foldl (fun a x => insertDesc key x a) acc) (acc ++ l) := by
  intro l
  induction l with
  | nil => intro acc; simp
  | cons x xs ih =>
    intro acc
    have h1 : (x :: xs).foldl (fun a x => insertDesc key x a) acc
        = xs.foldl (fun a x => insertDesc key x a) (insertDesc key x acc) := rfl
    rw [h1]
    refine (ih (insertDesc key x acc)).trans ?_
    refine ((insertDesc_perm key x acc).append_right xs).trans ?_
    simpa using List.perm_middle.symm

theorem stableSortDesc_perm (l : List α) : List.Perm (stableSortDesc key l) l := by
  simpa [stableSortDesc] using foldl_insertDesc_perm key l []

theorem insertDesc_sorted (x : α) {l : List α} (h : SortedDesc key l) :
    SortedDesc key (insertDesc key x l) := by
  induction l with
  | nil => simp [insertDesc, SortedDesc]
  | cons y ys ih =>
    rcases List.pairwise_cons.mp h with ⟨hy, hys⟩
    simp only [insertDesc]
    split
    case isTrue hlt =>
      refine List.pairwise_cons.mpr ⟨?_, h⟩
      intro z hz
      rcases List.mem_cons.mp hz with rfl | hz
      · exact le_of_lt hlt
      · exact (hy z hz).trans (le_of_lt hlt)
    case isFalse hge =>
      refine List.pairwise_cons.mpr ⟨?_, ih hys⟩
      intro z hz
      have hz' := (insertDesc_perm key x ys).mem_iff.mp hz
      rcases List.mem_cons.mp hz' with rfl | hz'
      · exact le_of_not_lt hge
      · exact hy z hz'

theorem stableSortDesc_sorted (l : List α) : SortedDesc key (stableSortDesc key l) := by
  have h : ∀ (l acc : List α), SortedDesc key acc →
      SortedDesc key (l.foldl (fun a x => insertDesc key x a) acc) := by
    intro l
    induction l with
    | nil => intro acc hacc; exact hacc
    | cons x xs ih => intro acc hacc; exact ih _ (insertDesc_sorted key x hacc)
  exact h l [] List.Pairwise.nil

theorem insertDesc_filter (q : ℚ) (x : α) {l : List α} (h : SortedDesc key l) :
    (insertDesc key x l).filter (fun a => decide (key a = q)) =
      l.filter (fun a => decide (key a = q)) ++ (if key x = q then [x] else []) := by
  induction l with
  | nil =>
    simp only [insertDesc, List.filter, List.nil_append]
    by_cases hxq : key x = q <;> simp [hxq]
  | cons y ys ih =>
    rcases List.pairwise_cons.mp h with ⟨hy, hys⟩
    simp only [insertDesc]
    split
    case isTrue hlt =>
      by_cases hxq : key x = q
      · have hnil : (y :: ys).filter (fun a => decide (key a = q)) = [] := by
          refine List.filter_eq_nil_iff.mpr ?_
          intro z hz
          have hzy : key z ≤ key y := by
            rcases List.mem_cons.mp hz with rfl | hz
            · exact le_refl _
            · exact hy z hz
          have hlt2 : key z < q := lt_of_le_of_lt hzy (hxq ▸ hlt)
          simp [ne_of_lt hlt2]
        simp [List.filter_cons, hxq, hnil]
      · simp [List.filter_cons, hxq]
    case isFalse hge =>
      simp only [List.filter_cons]
      rw [ih hys]
      by_cases hyq : key y = q <;> simp [hyq]

theorem stableSortDesc_filter (q : ℚ) (l : List α) :
    (stableSortDesc key l).filter (fun a => decide (key a = q)) =
      l.filter (fun a => decide (key a = q)) := by
  have h : ∀ (l acc : List α), SortedDesc key acc →
      (l.foldl (fun a x => insertDesc key x a) acc).filter (fun a => decide (key a = q)) =
        acc.filter (fun a => decide (key a = q)) ++ l.filter (fun a => decide (key a = q)) := by
    intro l
    induction l with
    | nil => intro acc hacc; simp
    | cons x xs ih =>
      intro acc hacc
      have h1 : (x :: xs).foldl (fun a x => insertDesc key x a) acc
          = xs.foldl (fun a x => insertDesc key x a) (insertDesc key x acc) := rfl
      rw [h1, ih _ (insertDesc_sorted key x hacc), insertDesc_filter key q x hacc]
      by_cases hxq : key x = q <;> simp [List.filter_cons, hxq]
  simpa [stableSortDesc] using h l [] List.Pairwise.nil

end SortLemmas

theorem mapOption_length {α β : Type} (f : α → Option β) :
    ∀ (l : List α) (l' : List β), mapOption f l = some l' → l'.length = l.length := by
  intro l
  induction l with
  | nil =>
    intro l' h
    simp only [mapOption, Option.some.injEq] at h
    simp [← h]
  | cons x xs ih =>
    intro l' h
    simp only [mapOption] at h
    cases hx : f x with
    | none => rw [hx] at h; exact absurd h (by simp)
    | some y =>
      cases hxs : mapOption f xs with
      | none => rw [hx, hxs] at h; exact absurd h (by simp)
      | some ys =>
        rw [hx, hxs] at h
        obtain rfl := Option.some.inj h
        simp [ih ys hxs]

theorem mapOption_get {α β : Type} (f : α → Option β) :
    ∀ (l : List α) (l' : List β), mapOption f l = some l' →
      ∀ (i : ℕ) (hi : i < l.length) (hi' : i < l'.length),
        f (l.get ⟨i, hi⟩) = some (l'.get ⟨i, hi'⟩) := by
  intro l
  induction l with
  | nil => intro l' _ i hi; exact absurd hi (by simp)
  | cons x xs ih =>
    intro l' h i hi hi'
    simp only [mapOption] at h
    cases hx : f x with
    | none => rw [hx] at h; exact absurd h (by simp)
    | some y =>
      cases hxs : mapOption f xs with
      | none => rw [hx, hxs] at h; exact absurd h (by simp)
      | some ys =>
        rw [hx, hxs] at h
        obtain rfl := Option.some.inj h
        match i with
        | 0 => simpa using hx
        | n + 1 =>
          have hn : n < xs.length := by simpa using hi
          simpa using ih ys hxs n hn (by simpa using hi')

theorem dictInsert_ne_nil (k : PyStr) (v : ℚ) (d : List (PyStr × ℚ)) :
    dictInsert k v d ≠ [] := by
  unfold dictInsert
  split
  case isTrue hany =>
    intro hmap
    rw [List.map_eq_nil_iff] at hmap
    subst hmap
    simp at hany
  case isFalse _ => simp

theorem buildScores_acc_ne_nil (r : Restaurant) :
    ∀ (ps : List UserPreferences) (d sc : List (PyStr × ℚ)),
      buildScores r ps d = some sc → d ≠ [] → sc ≠ [] := by
  intro ps
  induction ps with
  | nil =>
    intro d sc h hd
    simp only [buildScores, Option.some.injEq] at h
    exact h ▸ hd
  | cons p ps ih =>
    intro d sc h hd
    simp only [buildScores] at h
    cases hp : calculate_individual_score r p with
    | none => rw [hp] at h; exact absurd h (by simp)
    | some s =>
      rw [hp] at h
      exact ih _ _ h (dictInsert_ne_nil p.name s d)

theorem buildScores_ne_nil (r : Restaurant) (p : UserPreferences)
    (ps : List UserPreferences) (sc : List (PyStr × ℚ))
    (h : buildScores r (p :: ps) [] = some sc) : sc ≠ [] := by
  simp only [buildScores] at h
  cases hp : calculate_individual_score r p with
  | none => rw [hp] at h; exact absurd h (by simp)
  | some s =>
    rw [hp] at h
    exact buildScores_acc_ne_nil r ps _ sc h (dictInsert_ne_nil p.name s [])

/-- Core arithmetic fact behind claims C1 and C10: on a normal return with
at least one participant, the group score is the fairness-weighted
combination of the recorded per-participant scores and the compromise
level is their minimum. -/
theorem calculate_group_score_formula (r : Restaurant)
    (prefs : List UserPreferences) (res : ConsensusResult)
    (h : calculate_group_score r prefs = some res) (hne : prefs ≠ []) :
    res.individual_scores ≠ [] ∧
    res.group_score =
      7/10 * listMean (res.individual_scores.map Prod.snd) +
        3/10 * listMin (res.individual_scores.map Prod.snd) ∧
    res.compromise_level = listMin (res.individual_scores.map Prod.snd) := by
  rcases Option.map_eq_some'.mp h with ⟨sc, hsc, hres⟩
  have hscne : sc ≠ [] := by
    match prefs, hne with
    | p :: ps, _ => exact buildScores_ne_nil r p ps sc hsc
  rw [if_neg (by simpa [List.isEmpty_iff] using hscne)] at hres
  subst hres
  refine ⟨hscne, ?_, rfl⟩
  simp only [listMean]
  ring

theorem buildScores_individual_scores (r : Restaurant)
    (prefs : List UserPreferences) (res : ConsensusResult)
    (h : calculate_group_score r prefs = some res) :
    buildScores r prefs [] = some res.individual_scores := by
  rcases Option.map_eq_some'.mp h with ⟨sc, hsc, hres⟩
  by_cases hempty : sc.isEmpty = true
  · rw [if_pos hempty] at hres
    rw [List.isEmpty_iff] at hempty
    subst hres
    rw [hsc, hempty]
  · rw [if_neg hempty] at hres
    subst hres
    exact hsc

theorem find?_map_update (k : PyStr) (v : ℚ) :
    ∀ d : List (PyStr × ℚ), d.any (fun e => e.1 == k) = true →
      (((d.map fun e => if e.1 == k then (e.1, v) else e).find?
          fun e => e.1 == k).map Prod.snd) = some v := by
  intro d
  induction d with
  | nil => intro h; simp at h
  | cons e d ih =>
    intro h
    cases he : (e.1 == k) with
    | true => simp [List.find?, he]
    | false =>
      have htail : d.any (fun e => e.1 == k) = true := by
        simp only [List.any_cons, he, Bool.false_or] at h
        exact h
      simp only [List.map_cons, he, if_false, List.find?, Bool.false_eq_true]
      simpa [List.find?, he] using ih htail

theorem find?_append_missing (k : PyStr) (v : ℚ) :
    ∀ d : List (PyStr × ℚ), d.any (fun e => e.1 == k) = false →
      (((d ++ [(k, v)]).find? fun e => e.1 == k).map Prod.snd) = some v := by
  intro d
  induction d with
  | nil => simp [List.find?]
  | cons e d ih =>
    intro h
    simp only [List.any_cons, Bool.or_eq_false_iff] at h
    simp only [List.cons_append, List.find?, h.1]
    exact ih h.2

theorem dictLookup_insert_self (k : PyStr) (v : ℚ) (d : List (PyStr × ℚ)) :
    dictLookup k (dictInsert k v d) = some v := by
  unfold dictInsert dictLookup
  split
  case isTrue hany => exact find?_map_update k v d hany
  case isFalse hany =>
    have h' : d.any (fun e => e.1 == k) = false := by
      cases hb : d.any (fun e => e.1 == k)
      · rfl
      · exact absurd hb hany
    exact find?_append_missing k v d h'

theorem find?_map_update_other (k nm : PyStr) (v : ℚ) (hk : (k == nm) = false) :
    ∀ d : List (PyStr × ℚ),
      (((d.map fun e => if e.1 == k then (e.1, v) else e).find?
          fun e => e.1 == nm).map Prod.snd) =
        ((d.find? fun e => e.1 == nm).map Prod.snd) := by
  intro d
  induction d with
  | nil => rfl
  | cons e d ih =>
    rcases Bool.eq_false_or_eq_true (e.1 == k) with he | he
    · have h1 : e.1 = k := by simpa using he
      have he2 : (e.1 == nm) = false := by rw [h1]; exact hk
      rw [List.map_cons, if_pos he]
      simp only [List.find?_cons, he2]
      exact ih
    · rw [List.map_cons, if_neg (by simp [he])]
      rcases Bool.eq_false_or_eq_true (e.1 == nm) with he2 | he2 <;>
        simp only [List.find?_cons, he2]
      exact ih

theorem dictLookup_insert_other (k nm : PyStr) (v : ℚ) (hk : (k == nm) = false)
    (d : List (PyStr × ℚ)) :
    dictLookup nm (dictInsert k v d) = dictLookup nm d := by
  unfold dictInsert dictLookup
  split
  case isTrue hany => exact find?_map_update_other k nm v hk d
  case isFalse hany =>
    rw [List.find?_append]
    cases hd : d.find? fun e => e.1 == nm with
    | some e => simp
    | none => simp [List.find?, hk]

/-- The last preference in list order carrying a given name (the one whose
score survives the dict overwrites in `calculate_group_score`). -/
def lastPref (nm : PyStr) : List UserPreferences → Option UserPreferences
  | [] => none
  | p :: ps =>
      match lastPref nm ps with
      | some q => some q
      | none => if p.name == nm then some p else none

theorem buildScores_lookup (r : Restaurant) (nm : PyStr) :
    ∀ (ps : List UserPreferences) (d sc : List (PyStr × ℚ)),
      buildScores r ps d = some sc →
      dictLookup nm sc =
        match lastPref nm ps with
        | some p => calculate_individual_score r p
        | none => dictLookup nm d := by
  intro ps
  induction ps with
  | nil =>
    intro d sc h
    simp only [buildScores, Option.some.injEq] at h
    subst h
    rfl
  | cons p ps ih =>
    intro d sc h
    simp only [buildScores] at h
    cases hp : calculate_individual_score r p with
    | none => rw [hp] at h; exact absurd h (by simp)
    | some s =>
      rw [hp] at h
      have hmain := ih (dictInsert p.name s d) sc h
      simp only [lastPref]
      cases hlast : lastPref nm ps with
      | some q => rw [hlast] at hmain; exact hmain
      | none =>
        rw [hlast] at hmain
        have hmain2 : dictLookup nm sc = dictLookup nm (dictInsert p.name s d) := by
          rw [hmain]
        rcases Bool.eq_false_or_eq_true (p.name == nm) with hpn | hpn
        · have h1 : p.name = nm := by simpa using hpn
          have h2 : dictLookup nm sc = some s := by
            rw [hmain2, h1, dictLookup_insert_self]
          rw [h2, hpn]
          simp [hp]
        · rw [hmain2, dictLookup_insert_other p.name nm s hpn, hpn]
          simp

theorem dictInsert_count (k nm : PyStr) (v : ℚ) (d : List (PyStr × ℚ))
    (h : (d.filter fun e => e.1 == nm).length ≤ 1) :
    ((dictInsert k v d).filter fun e => e.1 == nm).length ≤ 1 := by
  unfold dictInsert
  split
  case isTrue hany =>
    have hcount :
        ((d.map fun e => if e.1 == k then (e.1, v) else e).filter
            fun e => e.1 == nm).length = (d.filter fun e => e.1 == nm).length := by
      rw [List.filter_map, List.length_map]
      congr 1
      apply List.filter_congr
      intro e _
      show ((if e.1 == k then (e.1, v) else e).1 == nm) = (e.1 == nm)
      split <;> rfl
    rw [hcount]
    exact h
  case isFalse hany =>
    have hany' : (d.any fun e => e.1 == k) = false := by
      cases hb : d.any fun e => e.1 == k
      · rfl
      · exact absurd hb hany
    rw [List.filter_append, List.length_append]
    rcases Bool.eq_false_or_eq_true (k == nm) with hk | hk
    · have hk1 : k = nm := by simpa using hk
      have hzero : (d.filter fun e => e.1 == nm).length = 0 := by
        rw [List.length_eq_zero, List.filter_eq_nil_iff]
        intro e he h4
        have h5 : e.1 = nm := by simpa using h4
        have h6 : (d.any fun e => e.1 == k) = true :=
          List.any_eq_true.mpr ⟨e, he, by simp [h5, hk1]⟩
        simp [hany'] at h6
      rw [hzero]
      simp [List.filter_cons, hk]
    · have hone : (List.filter (fun e => e.1 == nm) [(k, v)]).length = 0 := by
        simp [List.filter_cons, hk]
      rw [hone]
      simpa using h

theorem buildScores_count (r : Restaurant) (nm : PyStr) :
    ∀ (ps : List UserPreferences) (d sc : List (PyStr × ℚ)),
      buildScores r ps d = some sc →
      (d.filter fun e => e.1 == nm).length ≤ 1 →
      (sc.filter fun e => e.1 == nm).length ≤ 1 := by
  intro ps
  induction ps with
  | nil =>
    intro d sc h hd
    simp only [buildScores, Option.some.injEq] at h
    exact h ▸ hd
  | cons p ps ih =>
    intro d sc h hd
    simp only [buildScores] at h
    cases hp : calculate_individual_score r p with
    | none => rw [hp] at h; exact absurd h (by simp)
    | some s =>
      rw [hp] at h
      exact ih _ _ h (dictInsert_count p.name nm s d hd)

theorem cuisinePts_bounds (r : Restaurant) (p : UserPreferences) :
    0 ≤ cuisinePts r p ∧ cuisinePts r p ≤ 30 := by
  simp only [cuisinePts]
  split <;> [skip; norm_num [CUISINE_WEIGHT]]
  split
  · norm_num [CUISINE_WEIGHT]
  split <;> norm_num [CUISINE_WEIGHT]

theorem pricePts_bounds (r : Restaurant) (p : UserPreferences) :
    0 ≤ pricePts r p ∧ pricePts r p ≤ 20 := by
  simp only [pricePts]
  split <;> [skip; norm_num [PRICE_WEIGHT]]
  split
  · norm_num [PRICE_WEIGHT]
  split <;> norm_num [PRICE_WEIGHT]

theorem ambiancePts_bounds (r : Restaurant) (p : UserPreferences) :
    0 ≤ ambiancePts r p ∧ ambiancePts r p ≤ 10 := by
  simp only [ambiancePts]
  split <;> [skip; norm_num [AMBIANCE_WEIGHT]]
  split
  · norm_num [AMBIANCE_WEIGHT]
  split <;> norm_num [AMBIANCE_WEIGHT]

theorem distancePts_some (r : Restaurant) (p : UserPreferences)
    (hd : 0 ≤ r.distance) (hm : 0 ≤ p.max_distance)
    (hz : ¬(r.distance = 0 ∧ p.max_distance = 0)) :
    ∃ dp, distancePts r p = some dp ∧ 0 ≤ dp ∧ dp ≤ 15 := by
  simp only [distancePts]
  split
  case isTrue hle =>
    have hmne : p.max_distance ≠ 0 := by
      intro h0
      exact hz ⟨le_antisymm (h0 ▸ hle) hd, h0⟩
    have hmpos : 0 < p.max_distance := lt_of_le_of_ne hm (Ne.symm hmne)
    rw [if_neg hmne]
    refine ⟨_, rfl, ?_, ?_⟩
    · have hratio : r.distance / p.max_distance ≤ 1 := by
        rw [div_le_one hmpos]
        exact hle
      have h1 : 0 ≤ 1 - r.distance / p.max_distance := by linarith
      norm_num [DISTANCE_WEIGHT]
      linarith
    · have hratio : 0 ≤ r.distance / p.max_distance := div_nonneg hd hm
      norm_num [DISTANCE_WEIGHT]
      linarith
  case isFalse hgt => exact ⟨0, rfl, le_refl 0, by norm_num⟩

/-- The four valid price-tier strings of the data model. -/
def priceTiers : List PyStr := ["$".data, "$$".data, "$$$".data, "$$$$".data]

/-- Concrete restaurant with zero distance, for the division-by-zero runs. -/
def rZero : Restaurant :=
  ⟨"Cafe Zero".data, "Coffee".data, "$".data, 0, 4, [], "Cozy".data, "2 Side St".data, none⟩

/-- Concrete preference with zero maximum distance. -/
def pZero : UserPreferences := ⟨"Pat".data, [], [], "$".data, 0, [], []⟩

/-- Concrete Italian restaurant of the specification's worked scenario. -/
def rRoma : Restaurant :=
  ⟨"Roma".data, "Italian".data, "$$".data, 6/5, 4, [], "Romantic".data, "1 Main St".data, none⟩

/-- Concrete Italian-loving preference of the worked scenario. -/
def pAna : UserPreferences := ⟨"Ana".data, ["Italian".data], [], "$$".data, 3, [], []⟩

/-- The consensus result for `rRoma` scored by `pAna` alone. -/
def resAna : ConsensusResult :=
  ⟨rRoma, 89/100, [("Ana".data, 89/100)], 89/100, msgEveryone⟩

/-- A far copy of the Italian restaurant (distance beyond `pAna`'s limit). -/
def rFar : Restaurant :=
  ⟨"Lontano".data, "Italian".data, "$$".data, 5, 4, [], "Romantic".data, "9 Far St".data, none⟩

/-- The consensus result for `rFar` scored by `pAna` alone. -/
def resFar : ConsensusResult :=
  ⟨rFar, 4/5, [("Ana".data, 4/5)], 4/5, msgEveryone⟩

/-- First of two same-named preferences (budget matches `rRoma`). -/
def pSam1 : UserPreferences := ⟨"Sam".data, ["Italian".data], [], "$$".data, 3, [], []⟩

/-- Second same-named preference (cheaper budget, one tier off). -/
def pSam2 : UserPreferences := ⟨"Sam".data, ["Italian".data], [], "$".data, 3, [], []⟩

/-- The consensus result for `rRoma` under the duplicated name "Sam". -/
def resSam : ConsensusResult :=
  ⟨rRoma, 79/100, [("Sam".data, 79/100)], 79/100, msgEveryone⟩

/-- Concrete restaurant whose text contains a vetoed word. -/
def rVeto : Restaurant :=
  ⟨"Sushi Palace".data, "Japanese".data, "$$".data, 1, 4, [], "Lively".data, "9 Bay St".data, none⟩

/-- Concrete preference vetoing "Sushi". -/
def pVeto : UserPreferences := ⟨"Kim".data, [], [], "$$".data, 2, [], ["Sushi".data]⟩

/-- Concrete well-formed pair for the score-bounds witness. -/
def rBistro : Restaurant :=
  ⟨"Bistro".data, "French".data, "$$$".data, 1, 4, [], "Quiet".data, "3 Rue".data, none⟩

/-- Concrete well-formed preference for the score-bounds witness. -/
def pLee : UserPreferences := ⟨"Lee".data, [], [], "$$".data, 2, [], []⟩

/-- C2: if any veto keyword of the preference occurs as a case-insensitive
substring of the restaurant's name-plus-cuisine text, the individual score
is exactly 0, regardless of every other field. -/
theorem c2_veto_forces_zero (r : Restaurant) (p : UserPreferences)
    (h : ∃ v ∈ p.veto_items,
      strContains (pyLower v) (pyLower (r.name ++ ' ' :: r.cuisine)) = true) :
    calculate_individual_score r p = some 0 := by
  have hv : vetoHit r p = true := by
    rcases h with ⟨v, hv1, hv2⟩
    exact List.any_eq_true.mpr ⟨v, hv1, hv2⟩
  unfold calculate_individual_score
  rw [if_pos hv]

/-- Witness for C2 at a concrete vetoed restaurant. -/
theorem c2_veto_forces_zero_witness :
    (∃ v ∈ pVeto.veto_items,
      strContains (pyLower v) (pyLower (rVeto.name ++ ' ' :: rVeto.cuisine)) = true) ∧
    calculate_individual_score rVeto pVeto = some 0 :=
  ⟨⟨"Sushi".data, by decide, by decide⟩,
    c2_veto_forces_zero rVeto pVeto ⟨"Sushi".data, by decide, by decide⟩⟩

/-- C6: the worked scenario — an Italian restaurant at distance 1.2 against
an Italian preference with budget two dollar signs and limit 3.0 scores
exactly 0.89, for any restaurant name, rating, address and snippet. -/
theorem c6_italian_scenario (rName addr prefName : PyStr) (rating : ℚ)
    (snip : Option PyStr) :
    calculate_individual_score
      ⟨rName, "Italian".data, "$$".data, 6/5, rating, [], "Romantic".data, addr, snip⟩
      ⟨prefName, ["Italian".data], [], "$$".data, 3, [], []⟩ = some (89/100) := by
  norm_num [calculate_individual_score, vetoHit, dietaryFail, cuisinePts, pricePts,
    ambiancePts, distancePts, pyLower, strContains, strStarts, BUDGET_MAP_get,
    CUISINE_WEIGHT, DIETARY_WEIGHT, PRICE_WEIGHT, DISTANCE_WEIGHT, AMBIANCE_WEIGHT]

/-- C5: scoring a restaurant against an empty preference list returns
normally with group score 0, compromise level 0, an empty score map and
the explanatory message, never dividing by zero. -/
theorem c5_empty_prefs (r : Restaurant) :
    calculate_group_score r [] =
      some { restaurant := r, group_score := 0, individual_scores := [],
             compromise_level := 0, explanation := noUsersMsg } := rfl

/-- C3 (amended): for well-formed inputs that do not hit the zero-distance
zero-limit corner, the individual score returns normally and lies in
the closed interval from 0 to 1.  (At `distance = max_distance = 0` the
source instead raises `ZeroDivisionError`, see the counterexample.) -/
theorem c3_score_bounds (r : Restaurant) (p : UserPreferences)
    (hb : p.budget ∈ priceTiers) (hpr : r.price ∈ priceTiers)
    (hd : 0 ≤ r.distance) (hm : 0 ≤ p.max_distance)
    (hz : ¬(r.distance = 0 ∧ p.max_distance = 0)) :
    ∃ s, calculate_individual_score r p = some s ∧ 0 ≤ s ∧ s ≤ 1 := by
  unfold calculate_individual_score
  split
  · exact ⟨0, rfl, le_refl 0, by norm_num⟩
  split
  · exact ⟨0, rfl, le_refl 0, by norm_num⟩
  obtain ⟨dp, hdp, hdp0, hdp15⟩ := distancePts_some r p hd hm hz
  rw [hdp]
  obtain ⟨hc0, hc1⟩ := cuisinePts_bounds r p
  obtain ⟨hp0, hp1⟩ := pricePts_bounds r p
  obtain ⟨ha0, ha1⟩ := ambiancePts_bounds r p
  refine ⟨_, rfl, ?_, ?_⟩
  · apply div_nonneg _ (by norm_num)
    norm_num [DIETARY_WEIGHT]
    linarith
  · rw [div_le_one (by norm_num)]
    norm_num [DIETARY_WEIGHT]
    linarith

/-- Counterexample to C3 as stated: at distance 0 and maximum distance 0,
both fields well-formed per the data-model invariants, the source raises
`ZeroDivisionError` instead of returning a score. -/
theorem c3_counterexample :
    pZero.budget ∈ priceTiers ∧ rZero.price ∈ priceTiers ∧
    0 ≤ rZero.distance ∧ 0 ≤ pZero.max_distance ∧
    calculate_individual_score rZero pZero = none :=
  ⟨by decide, by decide, by norm_num [rZero], by norm_num [pZero],
    by norm_num [calculate_individual_score, vetoHit, dietaryFail, distancePts,
      rZero, pZero, pyLower, strContains, strStarts]⟩

/-- Witness for C3 at a concrete well-formed pair. -/
theorem c3_score_bounds_witness :
    (pLee.budget ∈ priceTiers ∧ rBistro.price ∈ priceTiers ∧
      0 ≤ rBistro.distance ∧ 0 ≤ pLee.max_distance ∧
      ¬(rBistro.distance = 0 ∧ pLee.max_distance = 0)) ∧
    ∃ s, calculate_individual_score rBistro pLee = some s ∧ 0 ≤ s ∧ s ≤ 1 :=
  ⟨⟨by decide, by decide, by norm_num [rBistro], by norm_num [pLee],
      by norm_num [rBistro, pLee]⟩,
    c3_score_bounds rBistro pLee (by decide) (by decide) (by norm_num [rBistro])
      (by norm_num [pLee]) (by norm_num [rBistro, pLee])⟩

/-- C1 (amended): whenever `calculate_group_score` returns on a non-empty
preference list (which it does unless a participant's zero `max_distance`
makes the per-participant scoring divide by zero), the group score is
exactly 0.7 times the mean of the per-participant scores it records plus
0.3 times their minimum, and the compromise level is that minimum. -/
theorem c1_group_score_weighted (r : Restaurant) (prefs : List UserPreferences)
    (res : ConsensusResult) (h : calculate_group_score r prefs = some res)
    (hne : prefs ≠ []) :
    res.group_score =
      7/10 * listMean (res.individual_scores.map Prod.snd) +
        3/10 * listMin (res.individual_scores.map Prod.snd) ∧
    res.compromise_level = listMin (res.individual_scores.map Prod.snd) := by
  have hf := calculate_group_score_formula r prefs res h hne
  exact ⟨hf.2.1, hf.2.2⟩

/-- Counterexample to C1 as stated: on the non-empty preference list
containing only `pZero`, `calculate_group_score` at `rZero` raises
(`ZeroDivisionError`) instead of returning a `ConsensusResult`. -/
theorem c1_counterexample : calculate_group_score rZero [pZero] = none := by
  norm_num [calculate_group_score, buildScores, calculate_individual_score,
    vetoHit, dietaryFail, distancePts, rZero, pZero, pyLower, strContains, strStarts]

/-- Witness for C1 at the concrete one-participant scenario. -/
theorem c1_group_score_weighted_witness :
    calculate_group_score rRoma [pAna] = some resAna ∧
    resAna.group_score =
      7/10 * listMean (resAna.individual_scores.map Prod.snd) +
        3/10 * listMin (resAna.individual_scores.map Prod.snd) ∧
    resAna.compromise_level = listMin (resAna.individual_scores.map Prod.snd) := by
  have hEval : calculate_group_score rRoma [pAna] = some resAna := by
    norm_num [calculate_group_score, buildScores, dictInsert, listMin, listMax,
      generate_explanation, msgEveryone, resAna,
      calculate_individual_score, vetoHit, dietaryFail, cuisinePts, pricePts,
      ambiancePts, distancePts, pyLower, strContains, strStarts, BUDGET_MAP_get,
      rRoma, pAna, noUsersMsg,
      CUISINE_WEIGHT, DIETARY_WEIGHT, PRICE_WEIGHT, DISTANCE_WEIGHT, AMBIANCE_WEIGHT]
  exact ⟨hEval, c1_group_score_weighted rRoma [pAna] resAna hEval (by simp)⟩

/-- C10: the score dict keeps one entry per participant name, that entry
holds the score of the last same-named preference in list order, and the
group statistics are computed from these deduplicated map values only. -/
theorem c10_duplicate_names (r : Restaurant) (prefs : List UserPreferences)
    (res : ConsensusResult) (h : calculate_group_score r prefs = some res) :
    (∀ nm, (res.individual_scores.filter fun e => e.1 == nm).length ≤ 1) ∧
    (∀ nm p', lastPref nm prefs = some p' →
        dictLookup nm res.individual_scores = calculate_individual_score r p') ∧
    (prefs ≠ [] →
        res.group_score =
          7/10 * listMean (res.individual_scores.map Prod.snd) +
            3/10 * listMin (res.individual_scores.map Prod.snd) ∧
        res.compromise_level = listMin (res.individual_scores.map Prod.snd)) := by
  have hbs := buildScores_individual_scores r prefs res h
  refine ⟨?_, ?_, ?_⟩
  · intro nm
    exact buildScores_count r nm prefs [] _ hbs (by simp)
  · intro nm p' hlast
    have hmain := buildScores_lookup r nm prefs [] _ hbs
    rw [hlast] at hmain
    exact hmain
  · intro hne
    have hf := calculate_group_score_formula r prefs res h hne
    exact ⟨hf.2.1, hf.2.2⟩

/-- Witness for C10 at the concrete duplicated-name scenario: two
preferences named "Sam", the stored entry is the later one's score. -/
theorem c10_duplicate_names_witness :
    calculate_group_score rRoma [pSam1, pSam2] = some resSam ∧
    lastPref "Sam".data [pSam1, pSam2] = some pSam2 ∧
    dictLookup "Sam".data resSam.individual_scores =
      calculate_individual_score rRoma pSam2 := by
  have hEval : calculate_group_score rRoma [pSam1, pSam2] = some resSam := by
    norm_num [calculate_group_score, buildScores, dictInsert, listMin, listMax,
      generate_explanation, msgEveryone, resSam,
      calculate_individual_score, vetoHit, dietaryFail, cuisinePts, pricePts,
      ambiancePts, distancePts, pyLower, strContains, strStarts, BUDGET_MAP_get,
      rRoma, pSam1, pSam2, noUsersMsg,
      CUISINE_WEIGHT, DIETARY_WEIGHT, PRICE_WEIGHT, DISTANCE_WEIGHT, AMBIANCE_WEIGHT]
  have hLast : lastPref "Sam".data [pSam1, pSam2] = some pSam2 := by decide
  exact ⟨hEval, hLast,
    (c10_duplicate_names rRoma [pSam1, pSam2] resSam hEval).2.1 "Sam".data pSam2 hLast⟩

/-- C4 (amended): whenever `rank_restaurants` returns (which it does
unless some scoring call divides by zero), it returns one result per
input restaurant, sorted non-increasingly by group score, with equal
scores kept in input order; the ranking is a pure function of its input. -/
theorem c4_rank_sorted_stable (rs : List Restaurant) (prefs : List UserPreferences)
    (out base : List ConsensusResult)
    (hout : rank_restaurants rs prefs = some out)
    (hbase : mapOption (fun r => calculate_group_score r prefs) rs = some base) :
    out.length = rs.length ∧
    List.Perm out base ∧
    SortedDesc (fun c => c.group_score) out ∧
    (∀ q : ℚ, out.filter (fun c => decide (c.group_score = q)) =
        base.filter fun c => decide (c.group_score = q)) ∧
    (∀ (i : ℕ) (hi : i < rs.length) (hi' : i < base.length),
        calculate_group_score (rs.get ⟨i, hi⟩) prefs = some (base.get ⟨i, hi'⟩)) ∧
    rank_restaurants rs prefs = rank_restaurants rs prefs := by
  have hsort : out = stableSortDesc (fun c => c.group_score) base := by
    unfold rank_restaurants at hout
    rw [hbase] at hout
    simpa using hout.symm
  subst hsort
  have hperm := stableSortDesc_perm (fun c : ConsensusResult => c.group_score) base
  refine ⟨?_, hperm, stableSortDesc_sorted _ base,
    fun q => stableSortDesc_filter _ q base,
    fun i hi hi' => mapOption_get _ rs base hbase i hi hi', rfl⟩
  rw [hperm.length_eq, mapOption_length _ rs base hbase]

/-- Counterexample to C4 as stated: ranking the one-element list `[rZero]`
for the one-participant list `[pZero]` raises instead of returning a
ranking. -/
theorem c4_counterexample : rank_restaurants [rZero] [pZero] = none := by
  norm_num [rank_restaurants, mapOption, calculate_group_score, buildScores,
    calculate_individual_score, vetoHit, dietaryFail, distancePts,
    rZero, pZero, pyLower, strContains, strStarts]

/-- Witness for C4 at a concrete two-restaurant ranking. -/
theorem c4_rank_sorted_stable_witness :
    rank_restaurants [rRoma, rFar] [pAna] = some [resAna, resFar] ∧
    mapOption (fun r => calculate_group_score r [pAna]) [rRoma, rFar] =
      some [resAna, resFar] ∧
    ([resAna, resFar] : List ConsensusResult).length =
      ([rRoma, rFar] : List Restaurant).length ∧
    SortedDesc (fun c => c.group_score) [resAna, resFar] := by
  have hbase : mapOption (fun r => calculate_group_score r [pAna]) [rRoma, rFar] =
      some [resAna, resFar] := by
    norm_num [mapOption, calculate_group_score, buildScores, dictInsert, listMin,
      listMax, generate_explanation, msgEveryone, resAna, resFar,
      calculate_individual_score, vetoHit, dietaryFail, cuisinePts, pricePts,
      ambiancePts, distancePts, pyLower, strContains, strStarts, BUDGET_MAP_get,
      rRoma, rFar, pAna, noUsersMsg,
      CUISINE_WEIGHT, DIETARY_WEIGHT, PRICE_WEIGHT, DISTANCE_WEIGHT, AMBIANCE_WEIGHT]
  have hout : rank_restaurants [rRoma, rFar] [pAna] = some [resAna, resFar] := by
    unfold rank_restaurants
    rw [hbase]
    norm_num [stableSortDesc, insertDesc, resAna, resFar]
  have hc := c4_rank_sorted_stable [rRoma, rFar] [pAna] [resAna, resFar]
    [resAna, resFar] hout hbase
  exact ⟨hout, hbase, hc.1, hc.2.2.1⟩

theorem certCount_removeFirst_le (b : PyStr) (e : Certificate) :
    ∀ certs : List Certificate, certCount b (removeFirst e certs) ≤ certCount b certs := by
  intro certs
  induction certs with
  | nil => exact le_refl _
  | cons y ys ih =>
    simp only [removeFirst]
    split
    · simp only [certCount, List.filter_cons]
      split
      · exact Nat.le_succ_of_le (le_refl _)
      · exact le_refl _
    · simp only [certCount, List.filter_cons]
      split
      · simpa using ih
      · exact ih

theorem certCount_removeFirst_self (b : PyStr) (e : Certificate)
    (hb : (e.business_name == b) = true) :
    ∀ certs : List Certificate, e ∈ certs →
      certCount b (removeFirst e certs) + 1 = certCount b certs := by
  intro certs
  induction certs with
  | nil => intro h; simp at h
  | cons y ys ih =>
    intro hmem
    simp only [removeFirst]
    split
    case isTrue hy =>
      simp only [certCount, List.filter_cons, hy, hb]
      simp
    case isFalse hy =>
      have hmem2 : e ∈ ys := by
        rcases List.mem_cons.mp hmem with rfl | h
        · exact absurd rfl hy
        · exact h
      simp only [certCount, List.filter_cons]
      split
      · simpa using ih hmem2
      · exact ih hmem2

theorem mem_removeFirst_of_ne (c e : Certificate) (hne : c ≠ e) :
    ∀ certs : List Certificate, c ∈ certs → c ∈ removeFirst e certs := by
  intro certs
  induction certs with
  | nil => intro h; simp at h
  | cons y ys ih =>
    intro hmem
    simp only [removeFirst]
    split
    case isTrue hy =>
      rcases List.mem_cons.mp hmem with rfl | h
      · exact absurd hy hne
      · exact h
    case isFalse hy =>
      rcases List.mem_cons.mp hmem with rfl | h
      · exact List.mem_cons_self c _
      · exact List.mem_cons_of_mem y (ih h)

theorem mem_eq_of_length_le_one {l : List Certificate} (h : l.length ≤ 1)
    {a b : Certificate} (ha : a ∈ l) (hb : b ∈ l) : a = b := by
  match l, h with
  | [], _ => simp at ha
  | [x], _ =>
    have h1 : a = x := by simpa using ha
    have h2 : b = x := by simpa using hb
    rw [h1, h2]
  | x :: y :: t, h => simp at h

theorem award_count_le (certs : List Certificate) (b2 : PyStr) (s : ℚ) (now : ℕ)
    (h : ∀ b', certCount b' certs ≤ 1) (b1 : PyStr) :
    certCount b1 (award_certificate certs b2 s now) ≤ 1 := by
  simp only [award_certificate]
  cases hex : certs.filter fun c => c.business_name == b2 with
  | nil =>
    simp only [certCount, List.filter_append]
    rcases Bool.eq_false_or_eq_true (b2 == b1) with hb | hb
    · have hb1 : b2 = b1 := by simpa using hb
      have hzero : certs.filter (fun c => c.business_name == b1) = [] := by
        rw [← hb1]
        exact hex
      simp [List.filter_cons, hzero, hb]
    · have hcert : List.filter (fun c => c.business_name == b1)
          [(⟨b2, s, now⟩ : Certificate)] = [] := by
        simp [List.filter_cons, hb]
      rw [List.length_append, hcert]
      simpa using h b1
  | cons e rest =>
    have he : e ∈ certs.filter fun c => c.business_name == b2 := by
      rw [hex]; exact List.mem_cons_self e rest
    have hem := List.mem_filter.mp he
    show certCount b1 (if e.avg_score < s
        then removeFirst e certs ++ [(⟨b2, s, now⟩ : Certificate)] else certs) ≤ 1
    split
    next hlt =>
      simp only [certCount, List.filter_append, List.length_append]
      rcases Bool.eq_false_or_eq_true (b2 == b1) with hb | hb
      · have hb1 : b2 = b1 := by simpa using hb
        have heb1 : (e.business_name == b1) = true := by rw [← hb1]; exact hem.2
        have hself := certCount_removeFirst_self b1 e heb1 certs hem.1
        have hle := h b1
        have hzero : certCount b1 (removeFirst e certs) = 0 := by omega
        have hcert : List.filter (fun c => c.business_name == b1)
            [(⟨b2, s, now⟩ : Certificate)] = [⟨b2, s, now⟩] := by
          simp [List.filter_cons, hb]
        simp only [certCount] at hzero
        rw [hzero, hcert]
        simp
      · have hcert : List.filter (fun c => c.business_name == b1)
            [(⟨b2, s, now⟩ : Certificate)] = [] := by
          simp [List.filter_cons, hb]
        rw [hcert]
        simpa using le_trans (certCount_removeFirst_le b1 e certs) (h b1)
    next hge => exact h b1

theorem award_score_mono (certs : List Certificate) (b : PyStr) (s : ℚ) (now : ℕ)
    (hinv : ∀ b', certCount b' certs ≤ 1) (c : Certificate)
    (hc : c ∈ certs) (hcb : c.business_name = b) :
    ∃ c' ∈ award_certificate certs b s now,
      c'.business_name = b ∧ c.avg_score ≤ c'.avg_score := by
  simp only [award_certificate]
  cases hex : certs.filter fun x => x.business_name == b with
  | nil => exact ⟨c, List.mem_append_left _ hc, hcb, le_refl _⟩
  | cons e rest =>
    have he : e ∈ certs.filter fun x => x.business_name == b := by
      rw [hex]; exact List.mem_cons_self e rest
    have hcf : c ∈ certs.filter fun x => x.business_name == b :=
      List.mem_filter.mpr ⟨hc, by simp [hcb]⟩
    have hce : c = e := mem_eq_of_length_le_one (hinv b) hcf he
    show ∃ c' ∈ (if e.avg_score < s
        then removeFirst e certs ++ [(⟨b, s, now⟩ : Certificate)] else certs),
      c'.business_name = b ∧ c.avg_score ≤ c'.avg_score
    split
    next hlt =>
      refine ⟨⟨b, s, now⟩, List.mem_append_right _ (List.mem_cons_self _ _), rfl, ?_⟩
      rw [hce]
      exact le_of_lt hlt
    next hge => exact ⟨c, hc, hcb, le_refl _⟩

/-- C7: under the at-most-one-certificate invariant, awarding preserves
the invariant and never lowers a stored score; in particular, starting
with no certificate for the pair, awarding 9.0 and then 8.0 leaves
exactly one certificate for the pair and its stored score is 9.0. -/
theorem c7_certificate_monotonic (certs : List Certificate) (b : PyStr)
    (now1 now2 : ℕ) (hinv : ∀ b', certCount b' certs ≤ 1)
    (hfresh : certCount b certs = 0) :
    (∀ (b2 : PyStr) (s : ℚ) (now : ℕ) (b1 : PyStr),
        certCount b1 (award_certificate certs b2 s now) ≤ 1) ∧
    (∀ (s : ℚ) (now : ℕ) (c : Certificate), c ∈ certs → c.business_name = b →
        ∃ c' ∈ award_certificate certs b s now,
          c'.business_name = b ∧ c.avg_score ≤ c'.avg_score) ∧
    certCount b (award_certificate (award_certificate certs b 9 now1) b 8 now2) = 1 ∧
    (∀ c ∈ award_certificate (award_certificate certs b 9 now1) b 8 now2,
        c.business_name = b → c.avg_score = 9) := by
  have hfilter : certs.filter (fun c => c.business_name == b) = [] := by
    rw [← List.length_eq_zero]
    exact hfresh
  have ha1 : award_certificate certs b 9 now1 = certs ++ [⟨b, 9, now1⟩] := by
    simp only [award_certificate]
    rw [hfilter]
  have hf2 : (certs ++ [(⟨b, 9, now1⟩ : Certificate)]).filter
      (fun c => c.business_name == b) = [⟨b, 9, now1⟩] := by
    rw [List.filter_append, hfilter]
    simp [List.filter_cons]
  have ha2 : award_certificate (certs ++ [(⟨b, 9, now1⟩ : Certificate)]) b 8 now2 =
      certs ++ [⟨b, 9, now1⟩] := by
    simp only [award_certificate]
    rw [hf2]
    norm_num
  refine ⟨fun b2 s now b1 => award_count_le certs b2 s now hinv b1,
    fun s now c hc hcb => award_score_mono certs b s now hinv c hc hcb, ?_, ?_⟩
  · rw [ha1, ha2]
    simp only [certCount]
    rw [hf2]
    rfl
  · rw [ha1, ha2]
    intro c hc hcb
    rcases List.mem_append.mp hc with h | h
    · exfalso
      have : c ∈ certs.filter (fun c => c.business_name == b) :=
        List.mem_filter.mpr ⟨h, by simp [hcb]⟩
      rw [hfilter] at this
      simp at this
    · have : c = ⟨b, 9, now1⟩ := by simpa using h
      rw [this]

/-- Witness for C7: a fresh user awarded 9.0 then 8.0 for one business. -/
theorem c7_certificate_monotonic_witness :
    (∀ b', certCount b' ([] : List Certificate) ≤ 1) ∧
    certCount "Cafe".data ([] : List Certificate) = 0 ∧
    certCount "Cafe".data
      (award_certificate (award_certificate [] "Cafe".data 9 0) "Cafe".data 8 1) = 1 := by
  have hinv : ∀ b', certCount b' ([] : List Certificate) ≤ 1 := by
    intro b'
    simp [certCount]
  have hfresh : certCount "Cafe".data ([] : List Certificate) = 0 := by
    simp [certCount]
  exact ⟨hinv, hfresh,
    (c7_certificate_monotonic [] "Cafe".data 0 1 hinv hfresh).2.2.1⟩

theorem leaderboard_filterMap (users : List (PyStr × UserProfile)) :
    (users.filterMap fun e =>
        if 0 < (get_user_stats e.2).total_attempts then some (mkLeaderboardEntry e)
        else none) =
      (users.filter fun e => decide (0 < e.2.total_attempts)).map mkLeaderboardEntry := by
  induction users with
  | nil => rfl
  | cons e es ih =>
    simp only [get_user_stats] at ih
    by_cases h : 0 < e.2.total_attempts
    · simp [List.filterMap_cons, List.filter_cons, get_user_stats, h, ih]
    · simp [List.filterMap_cons, List.filter_cons, get_user_stats, h, ih]

/-- C8: the global leaderboard holds exactly the users with at least one
attempt (a zero-attempt user never appears), sorted non-increasingly by
average score. -/
theorem c8_leaderboard_filter_sorted (users : List (PyStr × UserProfile)) :
    List.Perm (get_all_users_leaderboard users)
      ((users.filter fun e => decide (0 < e.2.total_attempts)).map mkLeaderboardEntry) ∧
    SortedDesc (fun e => e.avg_score) (get_all_users_leaderboard users) ∧
    ∀ e ∈ get_all_users_leaderboard users, 0 < e.total_attempts := by
  simp only [get_all_users_leaderboard]
  refine ⟨?_, stableSortDesc_sorted _ _, ?_⟩
  · rw [leaderboard_filterMap]
    exact stableSortDesc_perm _ _
  · intro e he
    have hmem := (stableSortDesc_perm (fun e : LeaderboardEntry => e.avg_score) _).mem_iff.mp he
    rw [leaderboard_filterMap] at hmem
    rcases List.mem_map.mp hmem with ⟨u, hu, rfl⟩
    have hcond := (List.mem_filter.mp hu).2
    have hlt : 0 < u.2.total_attempts := of_decide_eq_true hcond
    simpa [mkLeaderboardEntry, get_user_stats] using hlt

theorem residue_alnum_iff (t : PyStr) :
    pyStrIsAlnum ((t.filter fun c => !(c == ' ')).filter fun c => !(c == '_')) = true ↔
      ((∀ c ∈ t, pyIsAlnumChar c = true ∨ c = ' ' ∨ c = '_') ∧
        ∃ c ∈ t, pyIsAlnumChar c = true) := by
  unfold pyStrIsAlnum
  rw [Bool.and_eq_true, List.all_eq_true]
  constructor
  · rintro ⟨hne, hall⟩
    constructor
    · intro c hc
      by_cases hsp : c = ' '
      · exact Or.inr (Or.inl hsp)
      by_cases hun : c = '_'
      · exact Or.inr (Or.inr hun)
      · refine Or.inl (hall c ?_)
        refine List.mem_filter.mpr ⟨List.mem_filter.mpr ⟨hc, ?_⟩, ?_⟩ <;> simp [hsp, hun]
    · have hres : (t.filter fun c => !(c == ' ')).filter (fun c => !(c == '_')) ≠ [] := by
        intro hnil
        rw [hnil] at hne
        simp at hne
      obtain ⟨c, hcmem⟩ := List.exists_mem_of_ne_nil _ hres
      have h2 := List.mem_filter.mp hcmem
      have h3 := List.mem_filter.mp h2.1
      exact ⟨c, h3.1, hall c hcmem⟩
  · rintro ⟨hall, c, hc, hcal⟩
    have hcsp : ¬(c = ' ') := by
      intro h
      rw [h] at hcal
      exact absurd hcal (by decide)
    have hcun : ¬(c = '_') := by
      intro h
      rw [h] at hcal
      exact absurd hcal (by decide)
    have hcmem : c ∈ (t.filter fun c => !(c == ' ')).filter fun c => !(c == '_') := by
      refine List.mem_filter.mpr ⟨List.mem_filter.mpr ⟨hc, ?_⟩, ?_⟩ <;> simp [hcsp, hcun]
    constructor
    · have := List.ne_nil_of_mem hcmem
      simpa [List.isEmpty_iff] using this
    · intro d hdmem
      have h2 := List.mem_filter.mp hdmem
      have h3 := List.mem_filter.mp h2.1
      rcases hall d h3.1 with h | h | h
      · exact h
      · exfalso
        have := h2.1
        have h4 := (List.mem_filter.mp this).2
        rw [h] at h4
        simp at h4
      · exfalso
        have h4 := h2.2
        rw [h] at h4
        simp at h4

/-- C9 (amended): the stripped username is accepted exactly when its
length is between 3 and 20 and every character is alphanumeric, a space
or an underscore, and at least one character is alphanumeric (a username
of only spaces and underscores is rejected, since Python's `isalnum` is
false on the empty residue); rejections name the failed rule (too short,
too long, or bad character set); "ab" fails for length and
"John_Doe 123" passes. -/
theorem c9_username_validation :
    (∀ s : PyStr,
      validate_username s = UsernameCheck.accepted ↔
        (3 ≤ (pyStrip s).length ∧ (pyStrip s).length ≤ 20 ∧
          (∀ c ∈ pyStrip s, pyIsAlnumChar c = true ∨ c = ' ' ∨ c = '_') ∧
          ∃ c ∈ pyStrip s, pyIsAlnumChar c = true)) ∧
    (∀ s : PyStr, validate_username s = UsernameCheck.tooShort ↔
        (pyStrip s).length < 3) ∧
    (∀ s : PyStr, validate_username s = UsernameCheck.tooLong ↔
        (3 ≤ (pyStrip s).length ∧ 20 < (pyStrip s).length)) ∧
    validate_username "ab".data = UsernameCheck.tooShort ∧
    validate_username "John_Doe 123".data = UsernameCheck.accepted := by
  refine ⟨?_, ?_, ?_, by decide, by decide⟩
  · intro s
    simp only [validate_username]
    split
    case isTrue h1 =>
      constructor
      · intro h
        exact absurd h (by decide)
      · rintro ⟨h3, -, -, -⟩
        omega
    case isFalse h1 =>
      split
      case isTrue h2 =>
        constructor
        · intro h
          exact absurd h (by decide)
        · rintro ⟨-, h20, -, -⟩
          omega
      case isFalse h2 =>
        split
        case isTrue h3 =>
          constructor
          · intro h
            exact absurd h (by decide)
          · rintro ⟨-, -, hall, hex⟩
            have hres := (residue_alnum_iff (pyStrip s)).mpr ⟨hall, hex⟩
            rw [hres] at h3
            simp at h3
        case isFalse h3 =>
          have hres : pyStrIsAlnum (((pyStrip s).filter fun c =>
              !(c == ' ')).filter fun c => !(c == '_')) = true := by
            rcases Bool.eq_false_or_eq_true (pyStrIsAlnum (((pyStrip s).filter fun c =>
                !(c == ' ')).filter fun c => !(c == '_'))) with hb | hb
            · exact hb
            · rw [hb] at h3
              simp at h3
          have hiff := (residue_alnum_iff (pyStrip s)).mp hres
          constructor
          · intro _
            exact ⟨by omega, by omega, hiff.1, hiff.2⟩
          · intro _
            rfl
  · intro s
    simp only [validate_username]
    split
    case isTrue h1 =>
      simp [h1]
    case isFalse h1 =>
      split
      case isTrue h2 =>
        constructor
        · intro h
          exact absurd h (by decide)
        · intro h
          omega
      case isFalse h2 =>
        split <;> constructor <;> intro h <;> first
          | exact absurd h (by decide)
          | omega
  · intro s
    simp only [validate_username]
    split
    case isTrue h1 =>
      constructor
      · intro h
        exact absurd h (by decide)
      · intro h
        omega
    case isFalse h1 =>
      split
      case isTrue h2 =>
        constructor
        · intro _
          exact ⟨by omega, h2⟩
        · intro _
          rfl
      case isFalse h2 =>
        split <;> constructor <;> intro h <;> first
          | exact absurd h (by decide)
          | omega

/-- Counterexample to C9 as stated: "___" has valid length and only
characters from the allowed set, yet the code rejects it (for the
character-set rule), because the residue after removing spaces and
underscores is empty and Python's `isalnum` is false on it. -/
theorem c9_counterexample :
    validate_username "___".data = UsernameCheck.badCharset ∧
    3 ≤ (pyStrip "___".data).length ∧ (pyStrip "___".data).length ≤ 20 ∧
    ∀ c ∈ pyStrip "___".data, pyIsAlnumChar c = true ∨ c = ' ' ∨ c = '_' := by
  refine ⟨by decide, by decide, by decide, by decide⟩
